import Mathlib

/-!
Shallow embedding of `src/fingerprint-sdk.ts` (class `FingerprintSDK`).

Modelling conventions:
* JavaScript strings are `List Char`; byte arrays (`Uint8Array`) are `List Nat`
  with each entry below 256.
* JavaScript numbers (IEEE doubles) are embedded as exact real numbers `ℝ`.
  A JavaScript division by zero produces `NaN`/`Infinity`; in the `ℝ` model
  `x / 0 = 0`.  Every theorem touching a division-by-zero path states this
  explicitly in its doc comment.
* The platform externals (`crypto.subtle.digest`, `TextEncoder`, the DOM /
  WebAudio signal providers) are parameters: an abstract hash function and
  abstract raw signal strings, so that theorems quantify over every possible
  provider output.
* `String.prototype.repeat` throws a `RangeError` on a negative count, so its
  model returns `Option`, with `none` standing for the thrown exception.
-/

/-- Models the private field `weights` of `FingerprintSDK`
(lines 131–136): one floating-point weight per fingerprinting method. -/
structure Weights where
  canvas : ℝ
  webGL : ℝ
  audio : ℝ
  fonts : ℝ

/-- Models the initial value of `this.weights` (lines 131–136):
`{canvas: 0.3, webGL: 0.25, audio: 0.25, fonts: 0.2}`. -/
noncomputable def defaultWeights : Weights :=
  ⟨0.3, 0.25, 0.25, 0.2⟩

/-- Models the argument `newWeights: Partial<typeof this.weights>` of
`setWeights` (line 192): each key may be present (`some`) or absent (`none`). -/
structure WeightUpdate where
  canvas : Option ℝ := none
  webGL : Option ℝ := none
  audio : Option ℝ := none
  fonts : Option ℝ := none

/-- Models the spread merge `{ ...this.weights, ...newWeights }` (line 193):
keys present in the update override, absent keys keep the prior weight. -/
noncomputable def mergeWeights (w : Weights) (u : WeightUpdate) : Weights :=
  ⟨u.canvas.getD w.canvas, u.webGL.getD w.webGL,
   u.audio.getD w.audio, u.fonts.getD w.fonts⟩

/-- Sum of all four entries of a weight table, as computed by
`Object.values(this.weights).reduce((a, b) => a + b, 0)` (line 195). -/
noncomputable def sumW (w : Weights) : ℝ :=
  w.canvas + w.webGL + w.audio + w.fonts

/-- The total of the merged table inside `setWeights` (line 195),
computed once before the normalization loop. -/
noncomputable def mergedSum (w : Weights) (u : WeightUpdate) : ℝ :=
  sumW (mergeWeights w u)

/-- Models `setWeights` (lines 192–199): merge the update over the current
table, then divide every entry by the merged total.  The source performs no
validation and has no error path; with a zero total the JavaScript division
yields `NaN` (here `x / 0 = 0`). -/
noncomputable def setWeights (w : Weights) (u : WeightUpdate) : Weights :=
  let m := mergeWeights w u
  let s := mergedSum w u
  ⟨m.canvas / s, m.webGL / s, m.audio / s, m.fonts / s⟩

/-- Models `getWeights` (lines 187–189): returns a copy of the table.  The
defensive spread copy `{ ...this.weights }` is the identity in this
value-level model. -/
def getWeights (w : Weights) : Weights := w

/-- Models `String.prototype.repeat` applied to an integer count, as in
`canvasFingerprint.repeat(...)` (lines 146–149): a negative count throws a
`RangeError` (modelled as `none`); otherwise the string is concatenated with
itself `count` times. -/
def strRepeat (s : List Char) (n : Int) : Option (List Char) :=
  if n < 0 then none else some (List.flatten (List.replicate n.toNat s))

/-- Models one entry of the `weightedComponents` array (lines 145–150): a
per-signal digest repeated `Math.floor(weight * 100)` times. -/
noncomputable def weightedComponent (digest : List Char) (w : ℝ) :
    Option (List Char) :=
  strRepeat digest ⌊w * 100⌋

/-- Models `generateVisitorId` (lines 139–154).  `hash` abstracts
`hashData`/`createHash` (SHA-256 hex); the four raw arguments abstract the
provider outputs `canvas.toDataURL()`, the WebGL vendor~renderer string, the
joined audio frequency data, and `getFontList().join(',')`.  Each raw value
is digested, repeated `Math.floor(weight * 100)` times, the fragments are
joined in the order canvas, webGL, audio, fonts, and the result is digested
once more.  `none` models a thrown `RangeError` from a negative repeat
count. -/
noncomputable def generateVisitorId (hash : List Char → List Char)
    (w : Weights) (canvasRaw webGLRaw audioRaw fontListJoined : List Char) :
    Option (List Char) :=
  let canvasFingerprint := hash canvasRaw
  let webGLFingerprint := hash webGLRaw
  let audioFingerprint := hash audioRaw
  let fontFingerprint := hash fontListJoined
  match weightedComponent canvasFingerprint w.canvas,
        weightedComponent webGLFingerprint w.webGL,
        weightedComponent audioFingerprint w.audio,
        weightedComponent fontFingerprint w.fonts with
  | some c1, some c2, some c3, some c4 => some (hash (c1 ++ c2 ++ c3 ++ c4))
  | _, _, _, _ => none

/-- Written from the words of the specification (§4.3): digest each raw value
independently, repeat each per-signal digest `floor(weight * 100)` times,
concatenate the weighted fragments in canonical order canvas, webGL, audio,
fonts, and digest the combined string once more. -/
noncomputable def specVisitorId (hash : List Char → List Char)
    (w : Weights) (canvasRaw webGLRaw audioRaw fontListJoined : List Char) :
    List Char :=
  hash (List.flatten (List.replicate (⌊w.canvas * 100⌋).toNat (hash canvasRaw)) ++
        List.flatten (List.replicate (⌊w.webGL * 100⌋).toNat (hash webGLRaw)) ++
        List.flatten (List.replicate (⌊w.audio * 100⌋).toNat (hash audioRaw)) ++
        List.flatten (List.replicate (⌊w.fonts * 100⌋).toNat (hash fontListJoined)))

/-- Models the insertion-ordered key set of the `frequencies` object built by
`getEntropy` (lines 159–162): the distinct characters of the string in order
of first occurrence. -/
def distinctChars (s : List Char) : List Char :=
  s.foldl (fun acc c => if c ∈ acc then acc else acc ++ [c]) []

/-- Models `getEntropy` (lines 157–167): build the character-frequency table,
then fold `(entropy, freq) => entropy - p * log2(p)` with `p = freq / len`
over `Object.values(frequencies)`, starting from 0.  The `let` bindings of
the source are inlined; the value of a frequency `c` is `s.count c`. -/
noncomputable def getEntropy (s : List Char) : ℝ :=
  ((distinctChars s).map (fun c => s.count c)).foldl
    (fun (entropy : ℝ) (freq : ℕ) =>
      entropy - ((freq : ℝ) / (s.length : ℝ)) *
        Real.logb 2 ((freq : ℝ) / (s.length : ℝ))) 0

/-- Models `adjustWeights` (lines 170–184): compute the entropy of each of
the four digests, total them, and overwrite the whole weight table with
`entropy_i / totalEntropy`.  The source performs no zero-entropy check; with
total 0 the JavaScript division yields `NaN` (here `0 / 0 = 0`). -/
noncomputable def adjustWeights (hash : List Char → List Char)
    (canvasRaw webGLRaw audioRaw fontListJoined : List Char) : Weights :=
  let canvasEntropy := getEntropy (hash canvasRaw)
  let webGLEntropy := getEntropy (hash webGLRaw)
  let audioEntropy := getEntropy (hash audioRaw)
  let fontEntropy := getEntropy (hash fontListJoined)
  let totalEntropy := canvasEntropy + webGLEntropy + audioEntropy + fontEntropy
  ⟨canvasEntropy / totalEntropy, webGLEntropy / totalEntropy,
   audioEntropy / totalEntropy, fontEntropy / totalEntropy⟩

/-- Lowercase-hexadecimal character predicate: the alphabet produced by
`byte.toString(16)` for byte values. -/
def isHexLowerChar (c : Char) : Bool :=
  ('0' ≤ c && c ≤ '9') || ('a' ≤ c && c ≤ 'f')

/-- Models `byte.toString(16).padStart(2, '0')` from `createHash` (line 11):
the base-16 digit string of the byte (lowercase, `Nat.toDigits` matches the
JavaScript digit alphabet), left-padded with the character `0` to length 2. -/
def byteToHexChars (b : Nat) : List Char :=
  let ds := Nat.toDigits 16 b
  List.replicate (2 - ds.length) '0' ++ ds

/-- Models `createHash` (lines 1–13).  `sha256` abstracts
`crypto.subtle.digest` with the SHA-256 algorithm (a platform external
returning 32 bytes); `utf8` abstracts `TextEncoder.encode`.  The hash bytes
are mapped through `byteToHexChars` and joined into one hex string. -/
def createHash (sha256 : List Nat → List Nat) (utf8 : List Char → List Nat)
    (message : List Char) : List Char :=
  (((sha256 (utf8 message)).map byteToHexChars)).flatten

/-- Folding subtraction of a function over a list subtracts the sum of its
values from the initial accumulator. -/
theorem foldl_sub_eq (g : ℕ → ℝ) :
    ∀ (l : List ℕ) (a : ℝ),
      l.foldl (fun e x => e - g x) a = a - (l.map g).sum
  | [], a => by simp
  | x :: t, a => by
    rw [List.foldl_cons, foldl_sub_eq g t]
    simp
    ring

/-- Entropy of a string whose distinct characters all occur equally often:
with `k` distinct characters each occurring `m` times over length `k * m`,
the entropy is `log2 k`. -/
theorem entropy_uniform (s : List Char) (k m : ℕ) (hk : 0 < k) (hm : 0 < m)
    (hlen : s.length = k * m) (hdist : (distinctChars s).length = k)
    (hcnt : ∀ c ∈ distinctChars s, s.count c = m) :
    getEntropy s = Real.logb 2 k := by
  have hK : ((k : ℝ)) ≠ 0 := Nat.cast_ne_zero.mpr hk.ne'
  have hM : ((m : ℝ)) ≠ 0 := Nat.cast_ne_zero.mpr hm.ne'
  have hmap : (distinctChars s).map (fun c => s.count c) =
      List.replicate k m := by
    rw [List.eq_replicate_iff]
    refine ⟨by simpa using hdist, ?_⟩
    intro b hb
    obtain ⟨c, hc, rfl⟩ := List.mem_map.mp hb
    exact hcnt c hc
  have hfrac : ((m : ℝ)) / ((s.length : ℕ) : ℝ) = ((k : ℝ))⁻¹ := by
    rw [hlen]
    push_cast
    field_simp
    ring
  unfold getEntropy
  rw [hmap, foldl_sub_eq, List.map_replicate, List.sum_replicate, hfrac,
    nsmul_eq_mul, Real.logb_inv]
  field_simp

/-- The distinct-character list of `replicate n c` is `[c]` for positive
`n`. -/
theorem distinctChars_replicate (c : Char) :
    ∀ n : ℕ, 0 < n → distinctChars (List.replicate n c) = [c] := by
  have step : ∀ n : ℕ,
      List.foldl (fun acc x => if x ∈ acc then acc else acc ++ [x]) [c]
        (List.replicate n c) = [c] := by
    intro n
    induction n with
    | zero => simp
    | succ n ih =>
      rw [List.replicate_succ, List.foldl_cons]
      simpa using ih
  intro n hn
  obtain ⟨n, rfl⟩ := Nat.exists_eq_succ_of_ne_zero hn.ne'
  simpa [distinctChars] using step n

/-- Entropy of a one-character string is 0. -/
theorem getEntropy_singleton (c : Char) : getEntropy [c] = 0 := by
  have h := entropy_uniform [c] 1 1 one_pos one_pos (by simp)
    (by simpa using congrArg List.length (distinctChars_replicate c 1 one_pos))
    (by
      intro x hx
      have : distinctChars [c] = [c] := by
        simpa using distinctChars_replicate c 1 one_pos
      rw [this] at hx
      simp at hx
      subst hx
      simp)
  simpa using h

/-- The base-2 logarithm of 2 is 1. -/
theorem logb_two_two : Real.logb 2 2 = 1 :=
  Real.logb_self_eq_one (by norm_num)

set_option maxRecDepth 2000 in
/-- Every byte value renders to exactly two lowercase-hexadecimal
characters after padding. -/
theorem byteToHexChars_spec : ∀ b : Nat, b < 256 →
    (byteToHexChars b).length = 2 ∧
      (byteToHexChars b).all isHexLowerChar = true := by
  decide

/-- Joining the per-byte hex fragments of a byte list yields a string of
twice the list's length made of lowercase-hexadecimal characters. -/
theorem hexFlatten_spec (l : List Nat) (hb : ∀ b ∈ l, b < 256) :
    ((l.map byteToHexChars).flatten).length = 2 * l.length ∧
      ∀ c ∈ (l.map byteToHexChars).flatten, isHexLowerChar c = true := by
  induction l with
  | nil => simp
  | cons x t ih =>
    have hx := byteToHexChars_spec x (hb x (List.mem_cons_self x t))
    have ht := ih (fun b hbm => hb b (List.mem_cons_of_mem x hbm))
    constructor
    · simp only [List.map_cons, List.flatten_cons, List.length_append,
        List.length_cons, ht.1, hx.1]
      ring
    · intro c hc
      simp only [List.map_cons, List.flatten_cons, List.mem_append] at hc
      rcases hc with hc | hc
      · exact List.all_eq_true.mp hx.2 c hc
      · exact ht.2 c hc

/-- C1: for a fixed hash function, a fixed weight table and fixed raw signal
values, two calls of `generateVisitorId` return the identical visitor
identifier. -/
theorem generateVisitorId_deterministic (hash : List Char → List Char)
    (w : Weights) (c g a f c' g' a' f' : List Char)
    (hc : c = c') (hg : g = g') (ha : a = a') (hf : f = f') :
    generateVisitorId hash w c g a f =
      generateVisitorId hash w c' g' a' f' := by
  subst hc; subst hg; subst ha; subst hf
  rfl

/-- Witness for C1: two calls at the identity hash, the default table and
fixed concrete raw signals agree. -/
theorem generateVisitorId_deterministic_witness :
    generateVisitorId (fun s => s) defaultWeights ['x'] ['y'] ['z'] ['t'] =
      generateVisitorId (fun s => s) defaultWeights ['x'] ['y'] ['z'] ['t'] :=
  generateVisitorId_deterministic (fun s => s) defaultWeights
    ['x'] ['y'] ['z'] ['t'] ['x'] ['y'] ['z'] ['t'] rfl rfl rfl rfl

/-- C2: for nonnegative weights (every repeat count is then nonnegative, so
no `RangeError` is thrown), `generateVisitorId` returns exactly the spec's
composition: digest each raw value independently, repeat each per-signal
digest `floor(weight * 100)` times, concatenate the fragments in the
canonical order canvas, webGL, audio, fonts, and digest the combined string
once more. -/
theorem generateVisitorId_spec_eq (hash : List Char → List Char)
    (w : Weights) (c g a f : List Char) (hc : 0 ≤ w.canvas)
    (hg : 0 ≤ w.webGL) (ha : 0 ≤ w.audio) (hf : 0 ≤ w.fonts) :
    generateVisitorId hash w c g a f =
      some (specVisitorId hash w c g a f) := by
  have rc : ¬ (⌊w.canvas * 100⌋ < 0) :=
    not_lt.mpr (Int.floor_nonneg.mpr (mul_nonneg hc (by norm_num)))
  have rg : ¬ (⌊w.webGL * 100⌋ < 0) :=
    not_lt.mpr (Int.floor_nonneg.mpr (mul_nonneg hg (by norm_num)))
  have ra : ¬ (⌊w.audio * 100⌋ < 0) :=
    not_lt.mpr (Int.floor_nonneg.mpr (mul_nonneg ha (by norm_num)))
  have rf : ¬ (⌊w.fonts * 100⌋ < 0) :=
    not_lt.mpr (Int.floor_nonneg.mpr (mul_nonneg hf (by norm_num)))
  simp [generateVisitorId, weightedComponent, strRepeat, specVisitorId,
    rc, rg, ra, rf]

/-- Witness for C2 at the identity hash, the default table and empty raw
signals. -/
theorem generateVisitorId_spec_eq_witness :
    generateVisitorId (fun s => s) defaultWeights [] [] [] [] =
      some (specVisitorId (fun s => s) defaultWeights [] [] [] []) :=
  generateVisitorId_spec_eq (fun s => s) defaultWeights [] [] [] []
    (by norm_num [defaultWeights]) (by norm_num [defaultWeights])
    (by norm_num [defaultWeights]) (by norm_num [defaultWeights])

/-- C7 counterexample: the weight -0.1 is below 0.01, yet its weighted
fragment is not the empty string: the repeat count `floor(-0.1 * 100) = -10`
is not clamped, and `String.repeat` throws a `RangeError` (modelled as
`none`). -/
theorem weightedComponent_negative_counterexample :
    ((-0.1 : ℝ) < 0.01) ∧ weightedComponent ['a'] (-0.1) ≠ some [] := by
  constructor
  · norm_num
  · have h : ((-0.1 : ℝ) * 100) = ((-10 : ℤ) : ℝ) := by norm_num
    rw [weightedComponent, h, Int.floor_intCast]
    simp [strRepeat]

/-- C7 amended: for a NONNEGATIVE weight below 0.01 the repeat count
`floor(weight * 100)` is 0 and the weighted fragment contributed to the
combined string is the empty string, regardless of the digest value; a
negative weight instead makes `String.repeat` throw (no clamping in the
source). -/
theorem weightedComponent_lowWeight_empty (d : List Char) (w : ℝ)
    (h0 : 0 ≤ w) (h1 : w < 0.01) :
    weightedComponent d w = some [] := by
  have hfl : ⌊w * 100⌋ = 0 := by
    rw [Int.floor_eq_zero_iff, Set.mem_Ico]
    constructor
    · positivity
    · nlinarith
  rw [weightedComponent, hfl]
  norm_num [strRepeat]

/-- Witness for the amended C7 at weight 0.005 and digest `a`. -/
theorem weightedComponent_lowWeight_empty_witness :
    weightedComponent ['a'] 0.005 = some [] :=
  weightedComponent_lowWeight_empty ['a'] 0.005 (by norm_num) (by norm_num)

/-- C3 counterexample: `setWeights({canvas: -0.1})` does not leave the table
as it was (and raises nothing — the modelled function is total, mirroring
the validation-free source): the table changes, refuting the claimed
`InvalidWeightError` with atomic rollback. -/
theorem setWeights_negative_changes_table :
    setWeights defaultWeights ⟨some (-0.1), none, none, none⟩ ≠
      defaultWeights := by
  intro h
  have h1 := congrArg Weights.canvas h
  norm_num [setWeights, mergeWeights, mergedSum, sumW, defaultWeights] at h1

/-- C3 amended: `setWeights` performs no validation and has no error path:
it merges the update and divides every entry by the merged total even when a
supplied weight is negative.  `setWeights({canvas: -0.1})` on the default
table completes normally and sets the table to
`(-1/6, 5/12, 5/12, 1/3)`. -/
theorem setWeights_negative_no_error :
    setWeights defaultWeights ⟨some (-0.1), none, none, none⟩ =
      ⟨-(1/6 : ℝ), 5/12, 5/12, 1/3⟩ := by
  norm_num [setWeights, mergeWeights, mergedSum, sumW, defaultWeights,
    Weights.mk.injEq]

/-- C5 counterexample: a `setWeights` call whose merged total is zero
completes normally (the source throws nothing), yet the resulting weights do
not sum to 1: every entry is divided by zero (`NaN` in JavaScript, 0 in this
exact model), so the sum-to-1 invariant fails. -/
theorem setWeights_zero_total_sum_counterexample :
    sumW (setWeights defaultWeights ⟨some 0, some 0, some 0, some 0⟩) ≠ 1 := by
  norm_num [setWeights, mergeWeights, mergedSum, sumW, defaultWeights]

/-- C5 amended: after a `setWeights` whose merged total is nonzero, and
after an `adjustWeights` whose total entropy is nonzero, the weight table
sums to exactly 1; the zero-total divisions of the source are excluded by
the hypotheses. -/
theorem mutation_normalizes :
    (∀ (w : Weights) (u : WeightUpdate),
      mergedSum w u ≠ 0 → sumW (setWeights w u) = 1) ∧
    (∀ (hash : List Char → List Char) (c g a f : List Char),
      getEntropy (hash c) + getEntropy (hash g) + getEntropy (hash a) +
          getEntropy (hash f) ≠ 0 →
        sumW (adjustWeights hash c g a f) = 1) := by
  constructor
  · intro w u h
    simp only [setWeights, sumW, mergedSum, mergeWeights] at *
    rw [div_add_div_same, div_add_div_same, div_add_div_same, div_self h]
  · intro hash c g a f h
    simp only [adjustWeights, sumW]
    rw [div_add_div_same, div_add_div_same, div_add_div_same, div_self h]

/-- Witness for the amended C5: a `setWeights({canvas: 0.5})` call on the
default table (merged total 1.2) and an `adjustWeights` run whose four
digests are all `ab` (total entropy 4) both leave the table summing to 1. -/
theorem mutation_normalizes_witness :
    sumW (setWeights defaultWeights ⟨some 0.5, none, none, none⟩) = 1 ∧
    sumW (adjustWeights (fun _ => ['a', 'b']) [] [] [] []) = 1 := by
  have hab : getEntropy ['a', 'b'] = 1 := by
    have h := entropy_uniform ['a', 'b'] 2 1 (by norm_num) (by norm_num)
      (by decide) (by decide) (by decide)
    rw [h]
    norm_num [logb_two_two]
  constructor
  · exact mutation_normalizes.1 defaultWeights ⟨some 0.5, none, none, none⟩
      (by norm_num [mergedSum, sumW, mergeWeights, defaultWeights])
  · refine mutation_normalizes.2 (fun _ => ['a', 'b']) [] [] [] [] ?_
    show getEntropy ['a', 'b'] + getEntropy ['a', 'b'] + getEntropy ['a', 'b'] +
        getEntropy ['a', 'b'] ≠ 0
    rw [hab]
    norm_num

/-- C6: `setWeights({canvas: v})` merges the updated entry over the existing
table (the other keys keep their prior weight) and divides every entry by
the new total; consequently each remaining key is the prior weight over the
merged total, and the pairwise proportions between the keys other than
`canvas`, as read back through `getWeights`, are unchanged (stated by
cross-multiplication, which is also meaningful at weight 0). -/
theorem setWeights_preserves_proportions (w : Weights) (v : ℝ) :
    (setWeights w ⟨some v, none, none, none⟩).canvas =
        v / (v + w.webGL + w.audio + w.fonts) ∧
    (setWeights w ⟨some v, none, none, none⟩).webGL =
        w.webGL / (v + w.webGL + w.audio + w.fonts) ∧
    (setWeights w ⟨some v, none, none, none⟩).audio =
        w.audio / (v + w.webGL + w.audio + w.fonts) ∧
    (setWeights w ⟨some v, none, none, none⟩).fonts =
        w.fonts / (v + w.webGL + w.audio + w.fonts) ∧
    (getWeights (setWeights w ⟨some v, none, none, none⟩)).webGL *
        (getWeights w).audio =
      (getWeights w).webGL *
        (getWeights (setWeights w ⟨some v, none, none, none⟩)).audio ∧
    (getWeights (setWeights w ⟨some v, none, none, none⟩)).webGL *
        (getWeights w).fonts =
      (getWeights w).webGL *
        (getWeights (setWeights w ⟨some v, none, none, none⟩)).fonts ∧
    (getWeights (setWeights w ⟨some v, none, none, none⟩)).audio *
        (getWeights w).fonts =
      (getWeights w).audio *
        (getWeights (setWeights w ⟨some v, none, none, none⟩)).fonts := by
  simp only [setWeights, mergeWeights, mergedSum, sumW, getWeights,
    Option.getD_some, Option.getD_none]
  exact ⟨trivial, trivial, trivial, trivial, by ring, by ring, by ring⟩

/-- C4 counterexample: running `adjustWeights` when every digest is the
constant string `a` (total entropy exactly 0) does not leave the default
weight table unchanged (and raises nothing — the modelled function is total,
mirroring the check-free source): every weight is overwritten with the
division-by-zero value (`NaN` in JavaScript, 0 in this exact model). -/
theorem adjustWeights_degenerate_changes_table :
    adjustWeights (fun _ => ['a']) [] [] [] [] ≠ defaultWeights := by
  intro h
  have h1 := congrArg Weights.canvas h
  have he : getEntropy ['a'] = 0 := getEntropy_singleton 'a'
  norm_num [adjustWeights, he, defaultWeights] at h1

/-- C4 amended: `adjustWeights` performs no zero-entropy check and has no
error path: when the total entropy of the four digests is 0, every weight is
overwritten with `0 / 0` (`NaN` in JavaScript, 0 in this exact model), so
the table is changed, not preserved. -/
theorem adjustWeights_degenerate_overwrites (hash : List Char → List Char)
    (c g a f : List Char) (h1 : getEntropy (hash c) = 0)
    (h2 : getEntropy (hash g) = 0) (h3 : getEntropy (hash a) = 0)
    (h4 : getEntropy (hash f) = 0) :
    adjustWeights hash c g a f = ⟨0, 0, 0, 0⟩ := by
  norm_num [adjustWeights, h1, h2, h3, h4, Weights.mk.injEq]

/-- Witness for the amended C4: four constant digests `a`. -/
theorem adjustWeights_degenerate_overwrites_witness :
    adjustWeights (fun _ => ['a']) [] [] [] [] = ⟨0, 0, 0, 0⟩ :=
  adjustWeights_degenerate_overwrites (fun _ => ['a']) [] [] [] []
    (getEntropy_singleton 'a') (getEntropy_singleton 'a')
    (getEntropy_singleton 'a') (getEntropy_singleton 'a')

/-- C8: whenever the SHA-256 primitive returns its contractual 32 bytes
(each below 256), `createHash` returns a string of exactly 64 characters,
all lowercase hexadecimal, for every input message including the empty one;
the function is total. -/
theorem createHash_hex64 (sha256 : List Nat → List Nat)
    (utf8 : List Char → List Nat) (message : List Char)
    (hlen : (sha256 (utf8 message)).length = 32)
    (hbyte : ∀ b ∈ sha256 (utf8 message), b < 256) :
    (createHash sha256 utf8 message).length = 64 ∧
      ∀ c ∈ createHash sha256 utf8 message, isHexLowerChar c = true := by
  have h := hexFlatten_spec (sha256 (utf8 message)) hbyte
  unfold createHash
  refine ⟨?_, h.2⟩
  rw [h.1, hlen]

/-- Witness for C8: a stand-in SHA-256 returning 32 zero bytes on the empty
message. -/
theorem createHash_hex64_witness :
    (createHash (fun _ => List.replicate 32 0) (fun _ => []) []).length = 64 ∧
      ∀ c ∈ createHash (fun _ => List.replicate 32 0) (fun _ => []) [],
        isHexLowerChar c = true :=
  createHash_hex64 (fun _ => List.replicate 32 0) (fun _ => []) []
    (by decide) (by decide)

/-- C9: `getEntropy` realises Shannon entropy base 2 on the
character-frequency distribution: a string of one repeated character has
entropy 0 (`log2 1`), and a string with `k` distinct characters each
occurring `m` times over length `k * m` has entropy `log2 k`. -/
theorem getEntropy_shannon :
    (∀ (c : Char) (n : ℕ), 0 < n → getEntropy (List.replicate n c) = 0) ∧
    (∀ (s : List Char) (k m : ℕ), 0 < k → 0 < m → s.length = k * m →
      (distinctChars s).length = k →
      (∀ c ∈ distinctChars s, s.count c = m) →
      getEntropy s = Real.logb 2 k) := by
  constructor
  · intro c n hn
    have hd : distinctChars (List.replicate n c) = [c] :=
      distinctChars_replicate c n hn
    have h := entropy_uniform (List.replicate n c) 1 n one_pos hn
      (by simp) (by rw [hd]; rfl) ?_
    · simpa using h
    · intro x hx
      rw [hd] at hx
      simp at hx
      subst hx
      simp [List.count_replicate_self]
  · intro s k m hk hm hlen hdist hcnt
    exact entropy_uniform s k m hk hm hlen hdist hcnt

/-- Witness for C9: `aaaa` has entropy 0 and `abab` (two characters, each
twice) has entropy `log2 2`. -/
theorem getEntropy_shannon_witness :
    getEntropy (List.replicate 4 'a') = 0 ∧
      getEntropy ['a', 'b', 'a', 'b'] = Real.logb 2 2 := by
  constructor
  · exact getEntropy_shannon.1 'a' 4 (by norm_num)
  · have h := getEntropy_shannon.2 ['a', 'b', 'a', 'b'] 2 2 (by norm_num)
      (by norm_num) (by decide) (by decide) (by decide)
    simpa using h

/-- C10: `getEntropy` is total, and on the empty string the frequency table
is empty, so the fold returns its initial value 0 without any division by
the zero length. -/
theorem getEntropy_empty :
    getEntropy [] = 0 ∧ distinctChars [] = [] :=
  ⟨rfl, rfl⟩
